import Mathlib

/-!
Verification of the servidiot specification against a shallow embedding of the
source.  Each section embeds one part of the Rust source (file paths given in
the doc comments) as executable Lean definitions and proves, or refutes, the
spec's claims about it.
-/

set_option maxRecDepth 8192

namespace Servidiot

/-! ### VarInt (src/servidiot-network/src/io/primitives.rs, `impl Readable/Writable for VarInt`) -/

/-- Error cases of `VarInt::read_from`: `eof` models a failed `u8::read_from`
(cursor exhausted), `tooLarge` models the `bail!("VarInt too large!")` branch
taken once `position` reaches `MAX_LEN = 32`. -/
inductive VarIntErr where
  | eof
  | tooLarge
deriving DecidableEq, Repr

/-- Loop body of `VarInt::write_to`, with an explicit fuel argument (the Rust
loop is unbounded; for every i32 bit pattern it runs at most 5 iterations, so
`varIntWrite` below supplies fuel 5 and agrees with the source on the whole
i32 range `value < 2^32`).  `value` is the bit pattern of the `i32`; on
`value < 2^32` the Rust steps correspond as follows:
`value & !SEGMENT_BITS == 0` iff `value < 128`;
`((value & SEGMENT_BITS) | CONTINUE_BIT) as u8` is `value % 128 + 128`;
the logical shift `((value as u32) >> 7) as i32` is `value / 128`;
`value as u8` in the terminating branch is `value` itself since `value < 128`. -/
def varIntWriteFuel : Nat → Nat → List Nat
  | 0, _ => []
  | fuel + 1, value =>
    if value < 128 then [value]
    else (value % 128 + 128) :: varIntWriteFuel fuel (value / 128)

/-- Embedding of `VarInt::write_to` on i32 bit patterns (`value < 2^32`). -/
def varIntWrite (value : Nat) : List Nat :=
  varIntWriteFuel 5 value

/-- Embedding of the loop of `VarInt::read_from`.  `value` and `position` are
the mutable loop state (`value` an i32 bit pattern), the head byte is
`current_byte`.  `(current_byte & SEGMENT_BITS) << position` on i32 keeps only
bits 0..31, hence the `% 2^32`.  As in the source, the continue-bit test comes
before `position` is incremented and tested against `MAX_LEN = 32`. -/
def varIntReadLoop : List Nat → Nat → Nat → Except VarIntErr (Nat × List Nat)
  | [], _, _ => .error .eof
  | b :: rest, value, position =>
    let value' := value ||| (((b &&& 127) <<< position) % 2 ^ 32)
    if b &&& 128 == 0 then .ok (value', rest)
    else if 32 ≤ position + 7 then .error .tooLarge
    else varIntReadLoop rest value' (position + 7)

/-- Embedding of `VarInt::read_from`: run the loop with `value = 0`,
`position = 0`.  Returns the decoded i32 bit pattern and the unconsumed rest
of the input. -/
def varIntRead (data : List Nat) : Except VarIntErr (Nat × List Nat) :=
  varIntReadLoop data 0 0

/-- Bit pattern, as a natural number, of an `i32` value. -/
def i32bits (i : Int) : Nat := (i % 2 ^ 32).toNat

/-! Arithmetic helper lemmas about the byte-level operations. -/

theorem land127_eq_mod (b : Nat) : b &&& 127 = b % 128 := by
  have h := Nat.and_pow_two_sub_one_eq_mod b 7
  norm_num at h
  exact h

theorem land128_eq_zero {b : Nat} (h : b < 128) : b &&& 128 = 0 := by
  have ht : b.testBit 7 = false := by
    apply Nat.testBit_lt_two_pow
    norm_num
    omega
  have h2 := Nat.and_two_pow b 7
  rw [ht] at h2
  norm_num at h2
  exact h2

theorem land128_add {x : Nat} (h : x < 128) : (x + 128) &&& 128 = 128 := by
  have hdiv : (x + 128) / 2 ^ 7 = 1 := by
    apply Nat.div_eq_of_lt_le
    · norm_num
    · norm_num
      omega
  have ht : (x + 128).testBit 7 = true := by
    rw [Nat.testBit_to_div_mod, hdiv]
    decide
  have h2 := Nat.and_two_pow (x + 128) 7
  rw [ht] at h2
  norm_num at h2
  exact h2

theorem lor_shiftLeft_eq_add {a b n : Nat} (h : a < 2 ^ n) :
    a ||| b <<< n = a + b <<< n := by
  apply Nat.eq_of_testBit_eq
  intro i
  rcases Nat.lt_or_ge i n with hi | hi
  · have hbs : (b <<< n).testBit i = false := by
      rw [Nat.testBit_shiftLeft]
      simp [Nat.not_le_of_lt hi]
    have hsum : (a + b <<< n).testBit i = a.testBit i := by
      have hmod : (a + b <<< n) % 2 ^ n = a := by
        rw [Nat.shiftLeft_eq, Nat.add_mul_mod_self_right, Nat.mod_eq_of_lt h]
      have := Nat.testBit_mod_two_pow (a + b <<< n) n i
      rw [hmod] at this
      simp [hi] at this
      exact this.symm
    rw [Nat.testBit_or, hbs, hsum, Bool.or_false]
  · obtain ⟨j, rfl⟩ : ∃ j, i = n + j := ⟨i - n, by omega⟩
    have ha : a.testBit (n + j) = false :=
      Nat.testBit_lt_two_pow (lt_of_lt_of_le h (Nat.pow_le_pow_right (by norm_num) (by omega)))
    have hshift : (b <<< n).testBit (n + j) = b.testBit j := by
      rw [Nat.testBit_shiftLeft]
      simp [Nat.add_sub_cancel_left, show n ≤ n + j by omega]
    have hsum : (a + b <<< n).testBit (n + j) = b.testBit j := by
      have hdiv : (a + b <<< n) >>> n = b := by
        rw [Nat.shiftRight_eq_div_pow, Nat.shiftLeft_eq,
          Nat.add_mul_div_right _ _ (Nat.two_pow_pos n), Nat.div_eq_of_lt h, Nat.zero_add]
      have := Nat.testBit_shiftRight (x := a + b <<< n) (i := n) (j := j)
      rw [hdiv] at this
      rw [← this]
    rw [Nat.testBit_or, ha, hshift, hsum, Bool.false_or]

/-- Write-then-read loop lemma: reading bytes written for `u` (with enough
fuel), starting from accumulator `acc` at bit position `pos`, yields
`acc ||| u <<< pos` and consumes exactly the written bytes. -/
theorem varIntReadLoop_writeFuel :
    ∀ fuel u acc pos rest, 1 ≤ fuel → u < 2 ^ (7 * fuel) → u < 2 ^ (32 - pos) →
      pos % 7 = 0 → pos ≤ 28 →
      varIntReadLoop (varIntWriteFuel fuel u ++ rest) acc pos = .ok (acc ||| u <<< pos, rest) := by
  intro fuel
  induction fuel with
  | zero => intro u acc pos rest h1; omega
  | succ fuel ih =>
    intro u acc pos rest _ hfuel hu h7 h28
    rw [varIntWriteFuel]
    by_cases h : u < 128
    · simp only [if_pos h, List.cons_append, List.nil_append, varIntReadLoop]
      have hshift : (u <<< pos) % 2 ^ 32 = u <<< pos := by
        apply Nat.mod_eq_of_lt
        calc u <<< pos = u * 2 ^ pos := Nat.shiftLeft_eq u pos
        _ < 2 ^ (32 - pos) * 2 ^ pos := by
            exact Nat.mul_lt_mul_of_lt_of_le hu (le_refl _) (Nat.two_pow_pos pos)
        _ = 2 ^ 32 := by rw [← Nat.pow_add]; congr 1; omega
      rw [land127_eq_mod, Nat.mod_eq_of_lt h, hshift]
      have : u &&& 128 == 0 := by
        simp [land128_eq_zero h]
      simp [this]
    · simp only [if_neg h, List.cons_append, varIntReadLoop]
      have h128 : 128 ≤ u := by omega
      have hmodlt : u % 128 < 128 := Nat.mod_lt _ (by norm_num)
      have hb127 : (u % 128 + 128) &&& 127 = u % 128 := by
        rw [land127_eq_mod, Nat.add_mod_right, Nat.mod_mod_of_dvd _ (by norm_num)]
      have hb128 : (u % 128 + 128) &&& 128 = 128 := land128_add hmodlt
      have hposlt : pos < 25 := by
        by_contra hc
        have hps : (28 : Nat) ≤ pos := by omega
        have : (2 : Nat) ^ (32 - pos) ≤ 2 ^ 7 := by
          apply Nat.pow_le_pow_right (by norm_num)
          omega
        have hle : (2:Nat) ^ 7 = 128 := by norm_num
        omega
      have hpos21 : pos ≤ 21 := by omega
      have hshift : ((u % 128) <<< pos) % 2 ^ 32 = (u % 128) <<< pos := by
        apply Nat.mod_eq_of_lt
        calc (u % 128) <<< pos = (u % 128) * 2 ^ pos := Nat.shiftLeft_eq _ _
        _ < 128 * 2 ^ pos := by
            exact Nat.mul_lt_mul_of_lt_of_le hmodlt (le_refl _) (Nat.two_pow_pos pos)
        _ ≤ 128 * 2 ^ 21 := by
            have := Nat.pow_le_pow_right (show 1 ≤ 2 by norm_num) hpos21
            exact Nat.mul_le_mul_left _ this
        _ < 2 ^ 32 := by norm_num
      rw [hb127, hb128, hshift]
      have hne : ¬ ((128 : Nat) == 0) := by decide
      simp only [hne, Bool.false_eq_true, if_false]
      have hnot32 : ¬ (32 ≤ pos + 7) := by omega
      simp only [if_neg hnot32]
      have hfuel1 : 1 ≤ fuel := by
        by_contra hc
        have : fuel = 0 := by omega
        subst this
        norm_num at hfuel
        omega
      have hudiv : u / 128 < 2 ^ (7 * fuel) := by
        rw [Nat.div_lt_iff_lt_mul (by norm_num : (0:Nat) < 128)]
        calc u < 2 ^ (7 * (fuel + 1)) := hfuel
        _ = 2 ^ (7 * fuel) * 128 := by rw [Nat.mul_add, Nat.pow_add]
      have hudiv32 : u / 128 < 2 ^ (32 - (pos + 7)) := by
        rw [Nat.div_lt_iff_lt_mul (by norm_num : (0:Nat) < 128)]
        calc u < 2 ^ (32 - pos) := hu
        _ = 2 ^ (32 - (pos + 7)) * 128 := by
            rw [show (128:Nat) = 2 ^ 7 by norm_num, ← Nat.pow_add]
            congr 1
            omega
      rw [ih (u / 128) _ (pos + 7) rest hfuel1 hudiv hudiv32 (by omega) (by omega)]
      congr 2
      have hsplit : (u % 128) <<< pos + (u / 128) <<< (pos + 7) = u <<< pos := by
        rw [Nat.shiftLeft_eq, Nat.shiftLeft_eq, Nat.shiftLeft_eq, Nat.pow_add]
        have : u % 128 + 128 * (u / 128) = u := Nat.mod_add_div u 128
        calc (u % 128) * 2 ^ pos + u / 128 * (2 ^ pos * 2 ^ 7)
            = (u % 128 + 128 * (u / 128)) * 2 ^ pos := by
              rw [show (2:Nat) ^ 7 = 128 by norm_num]
              ring
        _ = u * 2 ^ pos := by rw [this]
      rw [Nat.or_assoc]
      congr 1
      have hlt : (u % 128) <<< pos < 2 ^ (pos + 7) := by
        rw [Nat.shiftLeft_eq, Nat.pow_add]
        calc (u % 128) * 2 ^ pos < 128 * 2 ^ pos := by
              exact Nat.mul_lt_mul_of_lt_of_le hmodlt (le_refl _) (Nat.two_pow_pos pos)
        _ = 2 ^ pos * 2 ^ 7 := by
            rw [show (2:Nat) ^ 7 = 128 by norm_num]
            ring
      rw [lor_shiftLeft_eq_add hlt, hsplit]

/-- Write-then-read round trip for every i32 bit pattern. -/
theorem varIntRead_varIntWrite {v : Nat} (rest : List Nat) (hv : v < 2 ^ 32) :
    varIntRead (varIntWrite v ++ rest) = .ok (v, rest) := by
  have h := varIntReadLoop_writeFuel 5 v 0 0 rest (by norm_num)
    (by norm_num; omega) (by norm_num; omega) (by norm_num) (by norm_num)
  rw [varIntRead, varIntWrite, h]
  simp

/-- The writer emits at most `k` bytes for a value below `2^(7k)`. -/
theorem varIntWriteFuel_length_le :
    ∀ fuel u k, u < 2 ^ (7 * k) → 1 ≤ k → (varIntWriteFuel fuel u).length ≤ k := by
  intro fuel
  induction fuel with
  | zero => intro u k _ _; simp [varIntWriteFuel]
  | succ fuel ih =>
    intro u k hu hk
    rw [varIntWriteFuel]
    by_cases h : u < 128
    · simp [h]; omega
    · simp only [if_neg h, List.length_cons]
      have hk2 : 2 ≤ k := by
        by_contra hc
        have : k = 1 := by omega
        subst this
        norm_num at hu
        omega
      have hdiv : u / 128 < 2 ^ (7 * (k - 1)) := by
        rw [Nat.div_lt_iff_lt_mul (by norm_num : (0:Nat) < 128)]
        calc u < 2 ^ (7 * k) := hu
        _ = 2 ^ (7 * (k - 1)) * 128 := by
            rw [show (128:Nat) = 2 ^ 7 by norm_num, ← Nat.pow_add]
            congr 1
            omega
      have := ih (u / 128) (k - 1) hdiv (by omega)
      omega

/-- Structure of a successful read: it consumes at least one byte, and the
value it returns is bounded by the number of bytes consumed (all bit groups
land below position `pos + 7k`, truncated at 32 bits). -/
theorem varIntReadLoop_bound :
    ∀ (bs : List Nat) acc pos v rest, varIntReadLoop bs acc pos = .ok (v, rest) →
      acc < 2 ^ min pos 32 →
      ∃ k, 1 ≤ k ∧ bs.length = k + rest.length ∧ v < 2 ^ min (pos + 7 * k) 32 := by
  intro bs
  induction bs with
  | nil => intro acc pos v rest h; simp [varIntReadLoop] at h
  | cons b tl ih =>
    intro acc pos v rest h hacc
    rw [varIntReadLoop] at h
    have hvlt : acc ||| ((b &&& 127) <<< pos) % 2 ^ 32 < 2 ^ min (pos + 7) 32 := by
      apply Nat.or_lt_two_pow
      · calc acc < 2 ^ min pos 32 := hacc
        _ ≤ 2 ^ min (pos + 7) 32 := Nat.pow_le_pow_right (by norm_num) (by omega)
      · have h1 : ((b &&& 127) <<< pos) % 2 ^ 32 < 2 ^ 32 :=
          Nat.mod_lt _ (Nat.two_pow_pos 32)
        have h2 : ((b &&& 127) <<< pos) % 2 ^ 32 < 2 ^ (pos + 7) := by
          calc ((b &&& 127) <<< pos) % 2 ^ 32 ≤ (b &&& 127) <<< pos := Nat.mod_le _ _
          _ < 2 ^ (7 + pos) := Nat.shiftLeft_lt (by
              rw [land127_eq_mod]
              exact Nat.mod_lt _ (by norm_num))
          _ = 2 ^ (pos + 7) := by rw [Nat.add_comm]
        rcases Nat.le_total (pos + 7) 32 with hc | hc
        · rw [min_eq_left hc]; exact h2
        · rw [min_eq_right hc]; exact h1
    by_cases hcont : b &&& 128 == 0
    · simp only [hcont, if_true] at h
      obtain ⟨rfl, rfl⟩ : acc ||| ((b &&& 127) <<< pos) % 2 ^ 32 = v ∧ tl = rest := by
        constructor <;> [exact congrArg Prod.fst (Except.ok.inj h);
          exact congrArg Prod.snd (Except.ok.inj h)]
      exact ⟨1, by omega, by simp [Nat.add_comm], by simpa using hvlt⟩
    · simp only [hcont, Bool.false_eq_true, if_false] at h
      by_cases h32 : 32 ≤ pos + 7
      · simp [h32] at h
      · simp only [h32, if_false] at h
        obtain ⟨k, hk1, hlen, hvk⟩ := ih _ (pos + 7) v rest h hvlt
        exact ⟨k + 1, by omega, by simp [hlen]; omega, by
          have : pos + 7 + 7 * k = pos + 7 * (k + 1) := by ring
          rwa [this] at hvk⟩

/-- A successful read never consumes fewer bytes than the writer emits for the
decoded value: the written encoding is minimal among all accepted encodings. -/
theorem varIntWrite_length_minimal {bs rest : List Nat} {v : Nat}
    (h : varIntRead bs = .ok (v, rest)) :
    (varIntWrite v).length + rest.length ≤ bs.length := by
  obtain ⟨k, hk1, hlen, hv⟩ := varIntReadLoop_bound bs 0 0 v rest h (by norm_num)
  rw [Nat.zero_add] at hv
  rcases Nat.le_total (7 * k) 32 with hc | hc
  · rw [min_eq_left hc] at hv
    have := varIntWriteFuel_length_le 5 v k hv hk1
    rw [varIntWrite]
    omega
  · rw [min_eq_right hc] at hv
    have hv35 : v < 2 ^ (7 * 5) := by
      calc v < 2 ^ 32 := hv
      _ ≤ 2 ^ (7 * 5) := Nat.pow_le_pow_right (by norm_num) (by norm_num)
    have := varIntWriteFuel_length_le 5 v 5 hv35 (by norm_num)
    rw [varIntWrite]
    omega

/-- C4: for every 32-bit value, write-then-read round-trips to the original
value; the written encoding has the minimum length over all encodings the
reader accepts; and the specific inputs 0, 1, 127, 128, 255, 25565,
2147483647, -1 and -2147483648 encode to exactly the byte sequences of
scenario S1 (signed values taken as i32 bit patterns via `i32bits`). -/
theorem varint_roundtrip_minimal_table :
    (∀ v rest, v < 2 ^ 32 → varIntRead (varIntWrite v ++ rest) = .ok (v, rest))
    ∧ (∀ bs rest v, varIntRead bs = .ok (v, rest) →
        (varIntWrite v).length + rest.length ≤ bs.length)
    ∧ varIntWrite 0 = [0x00]
    ∧ varIntWrite 1 = [0x01]
    ∧ varIntWrite 127 = [0x7F]
    ∧ varIntWrite 128 = [0x80, 0x01]
    ∧ varIntWrite 255 = [0xFF, 0x01]
    ∧ varIntWrite 25565 = [0xDD, 0xC7, 0x01]
    ∧ varIntWrite 2147483647 = [0xFF, 0xFF, 0xFF, 0xFF, 0x07]
    ∧ varIntWrite (i32bits (-1)) = [0xFF, 0xFF, 0xFF, 0xFF, 0x0F]
    ∧ varIntWrite (i32bits (-2147483648)) = [0x80, 0x80, 0x80, 0x80, 0x08] := by
  refine ⟨fun v rest hv => varIntRead_varIntWrite rest hv,
    fun bs rest v h => varIntWrite_length_minimal h, ?_, ?_, ?_, ?_, ?_, ?_, ?_, ?_, ?_⟩
  all_goals decide

/-- Witness for C4: the round-trip and minimality statements applied at the
concrete value 25565 from the S1 table. -/
theorem varint_roundtrip_minimal_table_witness :
    varIntRead (varIntWrite 25565 ++ [9, 9]) = .ok (25565, [9, 9])
    ∧ (varIntWrite 300).length + [7].length ≤ [0xAC, 0x02, 7].length := by
  constructor
  · exact varint_roundtrip_minimal_table.1 25565 [9, 9] (by norm_num)
  · exact varint_roundtrip_minimal_table.2.1 [0xAC, 0x02, 7] [7] 300 rfl

/-! ### Frame codec (src/servidiot-network/src/io/codec.rs, `MinecraftCodec` and `Cryptor`) -/

/-- Embeds the `Cryptor` state: AES-128 in CFB8 mode (the `cfb8` crate over
`aes::Aes128`).  The AES-128 block function is an external library and is kept
abstract as the field `block` (16 bytes to 16 bytes); CFB8 itself is embedded
below.  The 16-byte shift register starts as the key, which the source also
uses as the IV (`Cryptor::init`). -/
structure Cryptor where
  block : List Nat → List Nat
  register : List Nat

/-- One CFB8 encryption step: keystream byte = first byte of the block cipher
applied to the register; ciphertext = plaintext XOR keystream; the register
shifts left one byte and takes the ciphertext byte in. -/
def cryptorEncryptByte (c : Cryptor) (p : Nat) : Cryptor × Nat :=
  let ct := p ^^^ (c.block c.register).headD 0
  ({ c with register := c.register.tail ++ [ct] }, ct)

/-- Embeds `Cryptor::encrypt`: CFB8 over a whole buffer, in place. -/
def cryptorEncrypt (c : Cryptor) : List Nat → Cryptor × List Nat
  | [] => (c, [])
  | p :: rest =>
    let s := cryptorEncryptByte c p
    let r := cryptorEncrypt s.1 rest
    (r.1, s.2 :: r.2)

/-- State of `MinecraftCodec`: optional cryptor, receive buffer, staging
buffer. -/
structure MinecraftCodec where
  cryptor : Option Cryptor
  receivedBuf : List Nat
  stagingBuf : List Nat

/-- Embeds `MinecraftCodec::write_packet`.  The packet argument is represented
by the bytes its `write_to` produces (the generic `P: Writable` serializer is
external to the codec).  Steps exactly as the source: serialize onto
`staging_buf`; write the VarInt of `staging_buf.len()` to `target`
(`VarInt::try_from` fails above `i32::MAX`); `Vec::append` moves the staging
bytes onto `target`; if a cryptor is present, `cryptor.encrypt(target)`
encrypts the whole of `target`, not only the newly appended range; finally
`staging_buf` is truncated to empty. -/
def writePacket (codec : MinecraftCodec) (packetBytes target : List Nat) :
    Except String (MinecraftCodec × List Nat) :=
  let staging := codec.stagingBuf ++ packetBytes
  if staging.length < 2 ^ 31 then
    let target1 := target ++ varIntWrite staging.length
    let target2 := target1 ++ staging
    match codec.cryptor with
    | none => .ok ({ codec with stagingBuf := [] }, target2)
    | some c =>
      let r := cryptorEncrypt c target2
      .ok ({ codec with cryptor := some r.1, stagingBuf := [] }, r.2)
  else .error "VarInt try_from: length does not fit in an i32"

/-- Embeds `MinecraftCodec::read_packet`, parametric in the packet parser
(the generic `P::read_from`).  A failed VarInt read of the frame length --
whether the input ran out or the VarInt was malformed -- is swallowed by the
source's `if let Ok(v) = VarInt::read_from(..)` and the function returns
`Ok(None)` ("need more data").  A decoded length with the i32 sign bit set
fails `v.0.try_into::<usize>()` and is an error, as is a failed packet
parse. -/
def readPacket {α : Type} (parse : List Nat → Except String (α × List Nat))
    (codec : MinecraftCodec) : Except String (MinecraftCodec × Option α) :=
  match varIntRead codec.receivedBuf with
  | .error _ => .ok (codec, none)
  | .ok (lenBits, rest) =>
    if 2 ^ 31 ≤ lenBits then .error "negative frame length"
    else if lenBits ≤ rest.length then
      match parse rest with
      | .error e => .error e
      | .ok (p, _) =>
        let varintLength := codec.receivedBuf.length - rest.length
        let endOfPacket := varintLength + lenBits
        .ok ({ codec with receivedBuf := codec.receivedBuf.drop endOfPacket }, some p)
    else .ok (codec, none)

/-- Trivial packet parser used to instantiate the generic `P::read_from` in
evaluations whose result does not depend on the parser. -/
def unitParse (bs : List Nat) : Except String (Unit × List Nat) := .ok ((), bs)

/-- Codec state whose receive buffer holds a malformed frame-length VarInt:
five bytes with the continuation bit set. -/
def malformedCodec : MinecraftCodec :=
  { cryptor := none
    receivedBuf := [0x80, 0x80, 0x80, 0x80, 0x80]
    stagingBuf := [] }

/-- C7: on a receive buffer whose leading bytes form a malformed frame-length
VarInt (five continuation bytes), `VarInt::read_from` does fail with the
malformed-VarInt error, but `read_packet` swallows it and returns `Ok(None)`
("need more data") instead of a protocol-malformed failure, so the connection
is never terminated.  This refutes the claim and witnesses the divergence of
the code from the spec's error-handling section. -/
theorem readPacket_swallows_malformed_varint :
    varIntRead [0x80, 0x80, 0x80, 0x80, 0x80] = .error .tooLarge
    ∧ readPacket unitParse malformedCodec = .ok (malformedCodec, none) :=
  ⟨rfl, rfl⟩

/-- Identity block function standing in for the (external) AES-128 core in
concrete cryptor evaluations. -/
def idBlock : List Nat → List Nat := fun r => r

/-- Concrete cryptor: identity core, register/key starting with byte 1. -/
def oneCryptor : Cryptor :=
  { block := idBlock
    register := [1, 0, 0, 0, 0, 0, 0, 0, 0, 0, 0, 0, 0, 0, 0, 0] }

/-- Codec with encryption enabled, used for the C6 counterexample. -/
def encCodec : MinecraftCodec :=
  { cryptor := some oneCryptor, receivedBuf := [], stagingBuf := [] }

/-- C6 counterexample: with encryption enabled and a non-empty output buffer
`out = [0]`, `write_packet` of a 1-byte packet produces `[1, 1, 5]` -- the
pre-existing byte `0` was encrypted to `1`, so the bytes already present in
`out` before the call are NOT left unchanged, refuting the claim. -/
theorem writePacket_counterexample :
    (writePacket encCodec [5] [0]).map Prod.snd = .ok [1, 1, 5]
    ∧ [1, 1, 5].take 1 ≠ [0] := by
  constructor
  · rfl
  · decide

/-- C6 amended: `write_packet` appends exactly the VarInt length prefix
followed by the packet payload, and when encryption is enabled it encrypts the
ENTIRE output buffer in place -- the appended range coincides with the whole
buffer only when `out` was empty; with encryption off, bytes already present
in `out` are left unchanged. -/
theorem writePacket_spec (cr : Option Cryptor) (rb packetBytes target : List Nat)
    (h : packetBytes.length < 2 ^ 31) :
    writePacket { cryptor := cr, receivedBuf := rb, stagingBuf := [] } packetBytes target =
      match cr with
      | none => .ok ({ cryptor := none, receivedBuf := rb, stagingBuf := [] },
          target ++ (varIntWrite packetBytes.length ++ packetBytes))
      | some c => .ok
          ({ cryptor := some (cryptorEncrypt c (target ++ (varIntWrite packetBytes.length ++ packetBytes))).fst, receivedBuf := rb, stagingBuf := [] },
          (cryptorEncrypt c (target ++ (varIntWrite packetBytes.length ++ packetBytes))).snd) := by
  cases cr with
  | none =>
    simp only [writePacket, List.nil_append, if_pos h, List.append_assoc]
  | some c =>
    simp only [writePacket, List.nil_append, if_pos h, List.append_assoc]

/-- Witness for C6's amended theorem at a concrete packet, with and without
encryption. -/
theorem writePacket_spec_witness :
    writePacket { cryptor := none, receivedBuf := [], stagingBuf := [] } [5] [7]
      = .ok ({ cryptor := none, receivedBuf := [], stagingBuf := [] }, [7, 1, 5]) :=
  (writePacket_spec none [] [5] [7] (by norm_num)).trans rfl

/-! ### Region files (src/servidiot-anvil/src/region/file.rs, `RegionFile`) -/

/-- Embeds `CompressionType` (`1=gzip, 2=zlib, 3=uncompressed`). -/
inductive CompressionType where
  | gzip
  | zlib
  | uncompressed
deriving DecidableEq, Repr

/-- The `repr(u8)` discriminant of each compression type. -/
def compressionByte : CompressionType → Nat
  | .gzip => 1
  | .zlib => 2
  | .uncompressed => 3

/-- Embeds `TryFrom<u8> for CompressionType`. -/
def compressionOfByte (n : Nat) : Except String CompressionType :=
  if n = 1 then .ok .gzip
  else if n = 2 then .ok .zlib
  else if n = 3 then .ok .uncompressed
  else .error "unknown compression type"

/-- Big-endian bytes of a `u32` (`u32::to_be_bytes`). -/
def beU32 (n : Nat) : List Nat :=
  [n / 2 ^ 24 % 256, n / 2 ^ 16 % 256, n / 2 ^ 8 % 256, n % 256]

/-- Little-endian bytes of a `u32`, for the host-endian `[u32] -> [u8]`
transmute in `RegionFile::flush` (the original target is little-endian). -/
def leU32 (n : Nat) : List Nat :=
  [n % 256, n / 2 ^ 8 % 256, n / 2 ^ 16 % 256, n / 2 ^ 24 % 256]

/-- Value of a big-endian byte sequence (`u32::from_be_bytes` and friends). -/
def fromBE (bs : List Nat) : Nat := bs.foldl (fun acc b => acc * 256 + b) 0

/-- Value of a little-endian byte sequence. -/
def fromLE (bs : List Nat) : Nat := bs.foldr (fun b acc => acc * 256 + b) 0

/-- Byte image of the timestamp table under the source's
`transmute::<&[u32; 1024], &[u8; 4096]>` (little-endian host). -/
def timestampBytes : List Nat → List Nat
  | [] => []
  | t :: rest => leU32 t ++ timestampBytes rest

/-- Models `seek(SeekFrom::Start(pos))` followed by `write_all(data)` on a
file: the file is zero-extended as needed and `data` overwrites the range
`[pos, pos + data.length)`. -/
def writeAt (file : List Nat) (pos : Nat) (data : List Nat) : List Nat :=
  let f := file ++ List.replicate (pos + data.length - file.length) 0
  f.take pos ++ data ++ f.drop (pos + data.length)

/-- Models `seek(SeekFrom::Start(pos))` followed by `read_exact` of `len`
bytes, which fails with an I/O error if the file ends first. -/
def readAt (file : List Nat) (pos len : Nat) : Except String (List Nat) :=
  if pos + len ≤ file.length then .ok ((file.drop pos).take len)
  else .error "read_exact: unexpected end of file"

/-- In-memory state of `RegionFile`: the 4096-byte location table, the 1024
timestamps (kept as `u32` values, as in the source, and serialized only by
`flush`), the free-sector bitmap, and the file contents. -/
structure RegionFile where
  chunkLocation : List Nat
  timestamps : List Nat
  freeSectors : List Bool
  file : List Nat

/-- Byte index of a chunk's location-table entry:
`4 * ((position.x & 31) + (position.z & 31) * 32)`.  On i32, `x & 31` is the
euclidean remainder `x mod 32` (also for negative `x`). -/
def tableIndex (x z : Int) : Nat := 4 * ((x % 32).toNat + (z % 32).toNat * 32)

/-- Index of a chunk's timestamp entry: `(x & 31) + (z & 31) * 32`. -/
def tsIndex (x z : Int) : Nat := (x % 32).toNat + (z % 32).toNat * 32

/-- Embeds `RegionFile::get_chunk_location`: the 4-byte entry is read as
`u32::from_be_bytes([0, v0, v1, v2])` (a 3-byte offset) plus a 1-byte sector
count; `(0, 0)` means "chunk not present". -/
def getChunkLocation (r : RegionFile) (x z : Int) : Option (Nat × Nat) :=
  let v := (r.chunkLocation.drop (tableIndex x z)).take 4
  let offset := fromBE (v.take 3)
  let size := v.getD 3 0
  if offset = 0 ∧ size = 0 then none else some (offset, size)

/-- `RegionFile::MAX_OFFSET = u32::from_be_bytes([0, 255, 255, 255])`. -/
def maxOffset : Nat := 0xFFFFFF

/-- Embeds `RegionFile::set_chunk_location`: fails with `OffsetTooLarge` above
`MAX_OFFSET`; otherwise stores
`offset.to_be_bytes().rotate_left(1)` with the last byte replaced by `size`,
i.e. the three low big-endian offset bytes followed by the sector count. -/
def setChunkLocation (r : RegionFile) (x z : Int) (offset size : Nat) :
    Except String RegionFile :=
  if maxOffset < offset then .error "offset too large"
  else
    let bytes := [offset / 2 ^ 16 % 256, offset / 2 ^ 8 % 256, offset % 256, size]
    .ok { r with chunkLocation := writeAt r.chunkLocation (tableIndex x z) bytes }

/-- Embeds `RegionFile::get_chunk_timestamp`. -/
def getChunkTimestamp (r : RegionFile) (x z : Int) : Nat :=
  r.timestamps.getD (tsIndex x z) 0

/-- Embeds `RegionFile::set_chunk_timestamp`. -/
def setChunkTimestamp (r : RegionFile) (x z : Int) (ts : Nat) : RegionFile :=
  { r with timestamps := r.timestamps.set (tsIndex x z) ts }

/-- Models `for v in offset..offset+size { free_sectors.set(v, val) }`.
(`BitVec::set` would panic out of range; `List.set` is a no-op there — all
states reached in this development stay in range.) -/
def setRun (free : List Bool) (offset size : Nat) (val : Bool) : List Bool :=
  (List.range size).foldl (fun f v => f.set (offset + v) val) free

/-- Embeds the first-fit scanner loop of `write_chunk`: walk the bitmap with a
run counter `n` that resets on allocated sectors; break with the CURRENT index
`i` (the last index of the found run) as soon as `n` reaches `needed`;
return `none` if the loop ends without a hit. -/
def firstFitLoop (needed : Nat) : List Bool → Nat → Nat → Option Nat
  | [], _, _ => none
  | b :: rest, i, n =>
    let n' := if b then n + 1 else 0
    if n' = needed then some i else firstFitLoop needed rest (i + 1) n'

/-- First-fit scan over the whole bitmap. -/
def firstFit (free : List Bool) (needed : Nat) : Option Nat :=
  firstFitLoop needed free 0 0

/-- Embeds `RegionFile::flush`: rewrite the two header sectors (the location
table bytes at 0, the transmuted timestamp bytes at 4096). -/
def regionFlush (r : RegionFile) : RegionFile :=
  { r with file :=
      writeAt (writeAt r.file 0 r.chunkLocation) 4096 (timestampBytes r.timestamps) }

/-- Embeds `RegionFile::write_chunk` from the point where the chunk data has
been serialized and compressed (the `nbt` and flate serializers are external);
`serialized` is the compressed payload.  Steps mirror the source exactly:
free the previous allocation if any; set the timestamp; build
`full_data = (serialized.len() as u32).to_be_bytes() ++ [compression] ++ serialized`
— note the length field is `serialized.len()`, with no `+ 1` — where
`full_data.append(&mut serialized)` MOVES the elements and leaves `serialized`
empty; then compute `sectors_needed = (serialized.len() / 4096) + 1` on the
now-empty vector; first-fit scan; on a hit `i`, rewind to
`i - sectors_needed` (the source comment says "return to the start of this
free block", but the run's first index is `i - sectors_needed + 1`; the Nat
subtraction here mirrors the usize subtraction), clear the bitmap over the
chosen run, write the location entry and `full_data`; otherwise append
`sectors_needed` zeroed sectors at the end of the file, extend the bitmap and
write there; finally flush the headers. -/
def writeChunk (r : RegionFile) (comp : CompressionType) (x z : Int) (ts : Nat)
    (serialized : List Nat) : Except String RegionFile :=
  let r1 := match getChunkLocation r x z with
    | some os => { r with freeSectors := setRun r.freeSectors os.1 os.2 true }
    | none => r
  let r2 := setChunkTimestamp r1 x z ts
  let fullData := beU32 serialized.length ++ [compressionByte comp] ++ serialized
  let serializedAfterAppend : List Nat := []
  let sectorsNeeded := serializedAfterAppend.length / 4096 + 1
  match firstFit r2.freeSectors sectorsNeeded with
  | some iBreak =>
    let i := iBreak - sectorsNeeded
    let r3 := { r2 with freeSectors := setRun r2.freeSectors i sectorsNeeded false }
    match setChunkLocation r3 x z i sectorsNeeded with
    | .error e => .error e
    | .ok r4 => .ok (regionFlush { r4 with file := writeAt r4.file (i * 4096) fullData })
  | none =>
    let sectorStart := r2.freeSectors.length
    let r3 := { r2 with
      file := r2.file ++ List.replicate (sectorsNeeded * 4096) 0
      freeSectors := r2.freeSectors ++ List.replicate sectorsNeeded false }
    match setChunkLocation r3 x z sectorStart sectorsNeeded with
    | .error e => .error e
    | .ok r4 =>
      .ok (regionFlush { r4 with file := writeAt r4.file (sectorStart * 4096) fullData })

/-- Embeds `RegionFile::read_chunk` up to (but not including) decompression
and NBT decoding, which are external: returns the compression type, the raw
payload bytes read, and the timestamp.  Reads the `u32 length`, the
`u8 compression`, and then `length` bytes
(`let mut data = vec![0; exact_size]; read_exact(&mut data)`). -/
def readChunk (r : RegionFile) (x z : Int) :
    Except String (CompressionType × List Nat × Nat) :=
  let ts := getChunkTimestamp r x z
  match getChunkLocation r x z with
  | none => .error "chunk not present in region file"
  | some os =>
    let pos := os.1 * 4096
    match readAt r.file pos 4 with
    | .error e => .error e
    | .ok sizeBytes =>
      let exactSize := fromBE sizeBytes
      match readAt r.file (pos + 4) 1 with
      | .error e => .error e
      | .ok compBytes =>
        match compressionOfByte (compBytes.getD 0 0) with
        | .error e => .error e
        | .ok comp =>
          match readAt r.file (pos + 5) exactSize with
          | .error e => .error e
          | .ok data => .ok (comp, data, ts)

/-- Timestamp table recovered from its header-sector bytes: the source's
`transmute::<[u8; 4096], [u32; 1024]>` on a little-endian host. -/
def regionTimestamps (tsBytes : List Nat) : List Nat :=
  (List.range 1024).map fun i => fromLE ((tsBytes.drop (4 * i)).take 4)

/-- Initial free-sector bitmap of `RegionFile::new`: one entry per 4096 file
bytes, all free, then sectors 0 and 1 reserved. -/
def regionFreeInit (len : Nat) : List Bool :=
  ((List.replicate (len / 4096) true).set 0 false).set 1 false

/-- The loop of `RegionFile::new` over the 1024 location-table entries,
clearing the run `[offset, offset+size)` of each. -/
def regionFreeScan (chunkLocation : List Nat) (free : List Bool) : List Bool :=
  (List.range 1024).foldl
    (fun f idx =>
      let v := (chunkLocation.drop (4 * idx)).take 4
      setRun f (fromBE (v.take 3)) (v.getD 3 0) false)
    free

/-- Embeds `RegionFile::new`: read the 4096-byte location table and the
timestamp sector (transmuted to `u32`s, little-endian host); size the bitmap
to `file_len / 4096`, all free; reserve sectors 0 and 1; then clear the run of
each populated location-table entry. -/
def regionNew (fileBytes : List Nat) : Except String RegionFile :=
  if fileBytes.length < 8192 then .error "read_exact: file shorter than the header"
  else .ok
    { chunkLocation := fileBytes.take 4096
      timestamps := regionTimestamps ((fileBytes.drop 4096).take 4096)
      freeSectors := regionFreeScan (fileBytes.take 4096) (regionFreeInit fileBytes.length)
      file := fileBytes }

/-- A fresh, empty region file: the two zeroed header sectors and nothing
else.  `regionNew_fresh` below shows this is what `RegionFile::new` builds
from 8192 zero bytes. -/
def freshRegion : RegionFile :=
  { chunkLocation := List.replicate 4096 0
    timestamps := List.replicate 1024 0
    freeSectors := [false, false]
    file := List.replicate 8192 0 }

/-! File-splice algebra for `writeAt`/`readAt`. -/

theorem length_writeAt (f d : List Nat) (p : Nat) :
    (writeAt f p d).length = max f.length (p + d.length) := by
  simp only [writeAt, List.length_append, List.length_take, List.length_drop,
    List.length_replicate]
  omega

theorem readAt_writeAt_self {f d : List Nat} {p : Nat} (hp : p ≤ f.length)
    {a n : Nat} (han : a + n ≤ d.length) :
    readAt (writeAt f p d) (p + a) n = .ok ((d.drop a).take n) := by
  have hlen : (writeAt f p d).length = max f.length (p + d.length) := length_writeAt f d p
  rw [readAt, if_pos (by omega)]
  congr 1
  simp only [writeAt]
  have hA : ((f ++ List.replicate (p + d.length - f.length) 0).take p).length = p := by
    simp only [List.length_take, List.length_append, List.length_replicate]
    omega
  rw [List.drop_append_eq_append_drop, List.drop_append_eq_append_drop]
  have hAnil : ((f ++ List.replicate (p + d.length - f.length) 0).take p).drop (p + a) = [] :=
    List.drop_eq_nil_of_le (by rw [hA]; omega)
  rw [hAnil, List.nil_append, hA]
  have hsub : p + a - p = a := by omega
  rw [hsub, List.take_append_eq_append_take]
  have h0 : n - (d.drop a).length = 0 := by
    simp only [List.length_drop]
    omega
  rw [h0, List.take_zero, List.append_nil]

theorem readAt_writeAt_above {f d : List Nat} {p q n : Nat} (hp : p ≤ f.length)
    (hq : p + d.length ≤ q) (hn : q + n ≤ f.length) :
    readAt (writeAt f p d) q n = readAt f q n := by
  have hlen : (writeAt f p d).length = max f.length (p + d.length) := length_writeAt f d p
  have hmaxl : f.length ≤ max f.length (p + d.length) := le_max_left _ _
  rw [readAt, if_pos (by omega), readAt, if_pos hn]
  congr 1
  simp only [writeAt]
  have hrepl : p + d.length - f.length = 0 := by omega
  rw [hrepl]
  simp only [List.replicate_zero, List.append_nil]
  rw [List.drop_append_eq_append_drop, List.drop_append_eq_append_drop]
  have h2 : (f.take p).drop q = [] := by
    apply List.drop_eq_nil_of_le
    simp only [List.length_take]
    omega
  rw [h2]
  simp only [List.nil_append, List.length_take]
  have h3 : min p f.length = p := by omega
  rw [h3]
  have h4 : d.drop (q - p) = [] := by
    apply List.drop_eq_nil_of_le
    omega
  rw [h4]
  simp only [List.nil_append, List.drop_drop]
  congr 1
  congr 1
  simp only [List.length_append, List.length_take, h3]
  omega

/-! Small arithmetic lemmas about the byte encodings. -/

theorem length_beU32 (n : Nat) : (beU32 n).length = 4 := rfl

theorem fromBE_beU32 {n : Nat} (h : n < 2 ^ 32) : fromBE (beU32 n) = n := by
  simp only [fromBE, beU32, List.foldl]
  norm_num
  omega

theorem length_timestampBytes (l : List Nat) : (timestampBytes l).length = 4 * l.length := by
  induction l with
  | nil => rfl
  | cons t rest ih => simp [timestampBytes, leU32, ih]; omega

theorem fromBE_replicate_zero (m : Nat) : fromBE (List.replicate m 0) = 0 := by
  have aux : ∀ k, List.foldl (fun acc b => acc * 256 + b) 0 (List.replicate k 0) = 0 := by
    intro k
    induction k with
    | zero => rfl
    | succ k ih => simpa [List.replicate_succ, List.foldl] using ih
  exact aux m

theorem fromLE_replicate_zero (m : Nat) : fromLE (List.replicate m 0) = 0 := by
  induction m with
  | zero => rfl
  | succ m ih => simpa [fromLE, List.replicate_succ, List.foldr] using ih

theorem foldl_const_id {α β : Type} (l : List β) (g : α → β → α)
    (h : ∀ a b, g a b = a) (init : α) : l.foldl g init = init := by
  induction l generalizing init with
  | nil => rfl
  | cons b rest ih => simp [List.foldl, h, ih]

theorem regionTimestamps_zero : regionTimestamps (List.replicate 4096 0) = List.replicate 1024 0 := by
  rw [regionTimestamps]
  calc (List.range 1024).map
        (fun i => fromLE (((List.replicate 4096 (0:Nat)).drop (4 * i)).take 4))
      = (List.range 1024).map (fun _ => 0) := by
        apply List.map_congr_left
        intro i _
        rw [List.drop_replicate, List.take_replicate, fromLE_replicate_zero]
    _ = List.replicate 1024 0 := by
        rw [List.map_const']
        simp

theorem regionFreeScan_zero (free : List Bool) :
    regionFreeScan (List.replicate 4096 0) free = free := by
  rw [regionFreeScan]
  apply foldl_const_id
  intro f idx
  have hsize : (((List.replicate 4096 (0:Nat)).drop (4 * idx)).take 4).getD 3 0 = 0 := by
    rw [List.drop_replicate, List.take_replicate]
    rcases Nat.lt_or_ge 3 (min 4 (4096 - 4 * idx)) with hc | hc
    · rw [List.getD_eq_getElem _ _ (by simpa using hc)]
      simp
    · rw [List.getD_eq_default]
      simpa using hc
  simp only [hsize]
  rfl

/-- `RegionFile::new` on a fresh file of two zeroed header sectors yields
`freshRegion`: all 1024 entries empty, sectors 0 and 1 reserved, no data
sectors. -/
theorem regionNew_fresh : regionNew (List.replicate 8192 0) = .ok freshRegion := by
  have htake : (List.replicate 8192 (0 : Nat)).take 4096 = List.replicate 4096 0 := by
    rw [List.take_replicate]
    norm_num
  have hdroptake : ((List.replicate 8192 (0 : Nat)).drop 4096).take 4096
      = List.replicate 4096 0 := by
    rw [List.drop_replicate, List.take_replicate]
    norm_num
  simp only [regionNew, List.length_replicate, htake, hdroptake, regionTimestamps_zero,
    regionFreeScan_zero]
  rw [if_neg (by omega)]
  rfl

/-- C1: the claim — allocated runs inside the file, no overlap, sectors 0 and
1 never allocated, free set the complement — is violated by the code.  From a
fresh region file, writing chunks (0,0) and (1,0) and then rewriting each once
ends with BOTH location entries naming the run `[1, 2)`: the two allocated
runs overlap, and sector 1 — the reserved timestamp-header sector — is
allocated to chunk data (and overwritten by the payload writes).  The cause
is the first-fit rewind `let i = i - sectors_needed` in `write_chunk`
(file.rs:210), which lands one sector before the free run found by the scan,
contradicting the source's own comment "return to the start of this free
block". -/
theorem region_firstFit_allocates_reserved_sector :
    regionNew (List.replicate 8192 0) = .ok freshRegion
    ∧ ((writeChunk freshRegion .zlib 0 0 7 [1, 2, 3] >>= fun r =>
        writeChunk r .zlib 1 0 7 [4, 5, 6] >>= fun r =>
        writeChunk r .zlib 0 0 8 [1, 2, 3] >>= fun r =>
        writeChunk r .zlib 1 0 8 [4, 5, 6]).map
          (fun r => (getChunkLocation r 0 0, getChunkLocation r 1 0)))
      = .ok (some (1, 1), some (1, 1)) :=
  ⟨regionNew_fresh, rfl⟩

/-- C2: the claim that `write_chunk` allocates
`ceil((payload_len + 5) / 4096)` sectors is violated: `full_data.append(&mut
serialized)` (file.rs:192) empties `serialized`, so
`sectors_needed = (serialized.len() / 4096) + 1` (file.rs:194) is always 1.
For a payload of 8000 bytes the location entry records 1 sector where the
claim requires `ceil(8005 / 4096) = 2`. -/
theorem writeChunk_sectorsNeeded_always_one :
    ((writeChunk freshRegion .zlib 0 0 7 (List.replicate 8000 1)).map
      (fun r => getChunkLocation r 0 0)) = .ok (some (2, 1))
    ∧ (8000 + 5 + 4095) / 4096 = 2 ∧ (1 : Nat) ≠ 2 :=
  ⟨rfl, by norm_num, by norm_num⟩

/-- The region-file state produced by `write_chunk` on a fresh region file:
chunk data appended as sector 2, location entry `(offset 2, size 1)`,
timestamp set, headers flushed.  This term is definitionally what
`writeChunk freshRegion comp 0 0 ts payload` computes. -/
def freshChunkFile (comp : CompressionType) (ts : Nat) (payload : List Nat) : RegionFile :=
  regionFlush
    { chunkLocation := writeAt (List.replicate 4096 0) 0 [0, 0, 2, 1]
      timestamps := (List.replicate 1024 0).set 0 ts
      freeSectors := [false, false] ++ List.replicate 1 false
      file := writeAt (List.replicate 8192 0 ++ List.replicate (1 * 4096) 0) (2 * 4096)
        (beU32 payload.length ++ [compressionByte comp] ++ payload) }

/-- What `write_chunk` writes on a fresh region file, and what `read_chunk`
then reads back: the stored u32 length field is `payload.length` (no `+ 1`),
the compression byte follows, and the read returns exactly `length` payload
bytes.  This is the shared basis for the C3 counterexample, theorem and
witness. -/
theorem writeChunk_fresh_spec (comp : CompressionType) (ts : Nat) (payload : List Nat)
    (h : payload.length < 2 ^ 32) :
    writeChunk freshRegion comp 0 0 ts payload = .ok (freshChunkFile comp ts payload)
    ∧ readAt (freshChunkFile comp ts payload).file 8192 4 = .ok (beU32 payload.length)
    ∧ readAt (freshChunkFile comp ts payload).file 8196 1 = .ok [compressionByte comp]
    ∧ readChunk (freshChunkFile comp ts payload) 0 0 = .ok (comp, payload, ts) := by
  have hw : writeChunk freshRegion comp 0 0 ts payload = .ok (freshChunkFile comp ts payload) := by
    with_unfolding_all rfl
  have hFDlen : (beU32 payload.length ++ [compressionByte comp] ++ payload).length
      = 5 + payload.length := by
    simp only [List.length_append, length_beU32, List.length_cons, List.length_nil]
  have hF1a : 12288 ≤ (writeAt (List.replicate 8192 0 ++ List.replicate (1 * 4096) 0) (2 * 4096)
      (beU32 payload.length ++ [compressionByte comp] ++ payload)).length := by
    simp only [length_writeAt, List.length_append, List.length_replicate]
    have := le_max_left (8192 + 1 * 4096)
      (2 * 4096 + (beU32 payload.length ++ [compressionByte comp] ++ payload).length)
    omega
  have hF1b : 8197 + payload.length ≤ (writeAt (List.replicate 8192 0 ++ List.replicate (1 * 4096) 0)
      (2 * 4096) (beU32 payload.length ++ [compressionByte comp] ++ payload)).length := by
    simp only [length_writeAt, List.length_append, List.length_replicate, hFDlen]
    have := le_max_right (8192 + 1 * 4096) (2 * 4096 + (5 + payload.length))
    omega
  have hTlen : (writeAt (List.replicate 4096 0) 0 [0, 0, 2, 1]).length = 4096 := by
    simp only [length_writeAt, List.length_replicate, List.length_cons, List.length_nil]
    omega
  have hTSlen : ((List.replicate 1024 0).set 0 ts).length = 1024 := by simp
  have hTSBlen : (timestampBytes ((List.replicate 1024 0).set 0 ts)).length = 4096 := by
    rw [length_timestampBytes, hTSlen]
  have hW1 : (writeAt (List.replicate 8192 0 ++ List.replicate (1 * 4096) 0) (2 * 4096)
        (beU32 payload.length ++ [compressionByte comp] ++ payload)).length
      ≤ (writeAt (writeAt (List.replicate 8192 0 ++ List.replicate (1 * 4096) 0) (2 * 4096)
        (beU32 payload.length ++ [compressionByte comp] ++ payload)) 0
        (writeAt (List.replicate 4096 0) 0 [0, 0, 2, 1])).length := by
    simp only [length_writeAt]
    exact le_max_left _ _
  have hread : ∀ a n, a + n ≤ 5 + payload.length →
      readAt (freshChunkFile comp ts payload).file (8192 + a) n
        = .ok (((beU32 payload.length ++ [compressionByte comp] ++ payload).drop a).take n) := by
    intro a n han
    show readAt (writeAt (writeAt (writeAt (List.replicate 8192 0 ++ List.replicate (1 * 4096) 0)
        (2 * 4096) (beU32 payload.length ++ [compressionByte comp] ++ payload)) 0
        (writeAt (List.replicate 4096 0) 0 [0, 0, 2, 1])) 4096
        (timestampBytes ((List.replicate 1024 0).set 0 ts))) (8192 + a) n = _
    rw [readAt_writeAt_above (p := 4096)
      (by simp only [length_writeAt, hTlen]
          have := le_max_right (writeAt (List.replicate 8192 0 ++ List.replicate (1 * 4096) 0)
            (2 * 4096) (beU32 payload.length ++ [compressionByte comp] ++ payload)).length (0 + 4096)
          omega)
      (by simp only [hTSBlen]
          omega)
      (by simp only [length_writeAt, hTlen]
          have h1 := le_max_left (writeAt (List.replicate 8192 0 ++ List.replicate (1 * 4096) 0)
            (2 * 4096) (beU32 payload.length ++ [compressionByte comp] ++ payload)).length (0 + 4096)
          omega)]
    rw [readAt_writeAt_above (p := 0)
      (by omega)
      (by simp only [hTlen]
          omega)
      (by omega)]
    have h8a : (8192 : Nat) + a = 2 * 4096 + a := by norm_num
    rw [h8a]
    rw [readAt_writeAt_self
      (by simp only [List.length_append, List.length_replicate]
          omega)
      (by simp only [hFDlen]
          omega)]
  have hcomp : compressionOfByte (compressionByte comp) = .ok comp := by
    cases comp <;> rfl
  have h4 : readAt (freshChunkFile comp ts payload).file 8192 4 = .ok (beU32 payload.length) := by
    have hx := hread 0 4 (by omega)
    rw [Nat.add_zero] at hx
    rw [hx]
    simp [beU32]
  have h1 : readAt (freshChunkFile comp ts payload).file 8196 1 = .ok [compressionByte comp] := by
    have hx := hread 4 1 (by omega)
    norm_num at hx
    rw [hx]
    simp [beU32]
  have hdata : readAt (freshChunkFile comp ts payload).file 8197 payload.length
      = .ok payload := by
    have hx := hread 5 payload.length (by omega)
    have h85 : (8192 : Nat) + 5 = 8197 := by norm_num
    rw [h85] at hx
    have hdrop : ((beU32 payload.length ++ [compressionByte comp] ++ payload).drop 5) = payload := by
      simp [beU32]
    rw [hx, hdrop, List.take_length]
  refine ⟨hw, h4, h1, ?_⟩
  have hloc : getChunkLocation (freshChunkFile comp ts payload) 0 0 = some (2, 1) := by
    with_unfolding_all rfl
  have hts : getChunkTimestamp (freshChunkFile comp ts payload) 0 0 = ts := by
    with_unfolding_all rfl
  have h2mul : (2 : Nat) * 4096 = 8192 := by norm_num
  have h8196 : (8192 : Nat) + 4 = 8196 := by norm_num
  have h8197 : (8192 : Nat) + 5 = 8197 := by norm_num
  simp only [readChunk, hloc, hts, h2mul, h4, h8196, h1, h8197]
  simp only [fromBE_beU32 h, List.getD_cons_zero, hcomp, hdata]

/-- C3 counterexample: the claim says the stored u32 length field equals
`payload_len + 1` and that `read_chunk` reads `length - 1` payload bytes.
Writing a 3-byte payload to a fresh region file stores the length field
`[0, 0, 0, 3]`, i.e. the value 3, not `3 + 1 = 4`; and `read_chunk` returns
all 3 payload bytes, i.e. `length` bytes, not `length - 1 = 2`. -/
theorem chunk_length_field_counterexample :
    writeChunk freshRegion CompressionType.zlib 0 0 7 [1, 2, 3]
      = .ok (freshChunkFile CompressionType.zlib 7 [1, 2, 3])
    ∧ readAt (freshChunkFile CompressionType.zlib 7 [1, 2, 3]).file 8192 4 = .ok [0, 0, 0, 3]
    ∧ fromBE [0, 0, 0, 3] ≠ 3 + 1
    ∧ readChunk (freshChunkFile CompressionType.zlib 7 [1, 2, 3]) 0 0
      = .ok (CompressionType.zlib, [1, 2, 3], 7) := by
  obtain ⟨a, b, c, d⟩ := writeChunk_fresh_spec CompressionType.zlib 7 [1, 2, 3] (by norm_num)
  refine ⟨a, ?_, by decide, d⟩
  rw [b]
  rfl

/-- C3 (amended): `write_chunk` stores, at the start of the chosen sector
run, a big-endian u32 length field equal to `payload_len` (no `+ 1`),
followed by the u8 compression id and the payload; `read_chunk`, after
reading the u32 length and the u8 compression id, reads exactly `length`
payload bytes (not `length - 1`).  The two sides are mutually consistent:
writing then reading a chunk on a fresh region file round-trips the
compression type, the payload and the timestamp. -/
theorem writeChunk_header_readChunk_roundtrip (comp : CompressionType) (ts : Nat)
    (payload : List Nat) (h : payload.length < 2 ^ 32) :
    writeChunk freshRegion comp 0 0 ts payload = .ok (freshChunkFile comp ts payload)
    ∧ readAt (freshChunkFile comp ts payload).file 8192 4 = .ok (beU32 payload.length)
    ∧ fromBE (beU32 payload.length) = payload.length
    ∧ readAt (freshChunkFile comp ts payload).file 8196 1 = .ok [compressionByte comp]
    ∧ readChunk (freshChunkFile comp ts payload) 0 0 = .ok (comp, payload, ts) := by
  obtain ⟨a, b, c, d⟩ := writeChunk_fresh_spec comp ts payload h
  exact ⟨a, b, fromBE_beU32 h, c, d⟩

/-- Witness for the C3 amended theorem at the concrete input
`comp = gzip`, `ts = 11`, `payload = [9, 8, 7, 6]`. -/
theorem writeChunk_header_readChunk_roundtrip_witness :
    ([9, 8, 7, 6] : List Nat).length < 2 ^ 32
    ∧ (writeChunk freshRegion CompressionType.gzip 0 0 11 [9, 8, 7, 6]
        = .ok (freshChunkFile CompressionType.gzip 11 [9, 8, 7, 6])
      ∧ readAt (freshChunkFile CompressionType.gzip 11 [9, 8, 7, 6]).file 8192 4
        = .ok (beU32 ([9, 8, 7, 6] : List Nat).length)
      ∧ fromBE (beU32 ([9, 8, 7, 6] : List Nat).length) = ([9, 8, 7, 6] : List Nat).length
      ∧ readAt (freshChunkFile CompressionType.gzip 11 [9, 8, 7, 6]).file 8196 1
        = .ok [compressionByte CompressionType.gzip]
      ∧ readChunk (freshChunkFile CompressionType.gzip 11 [9, 8, 7, 6]) 0 0
        = .ok (CompressionType.gzip, [9, 8, 7, 6], 11)) :=
  ⟨by norm_num,
   writeChunk_header_readChunk_roundtrip CompressionType.gzip 11 [9, 8, 7, 6] (by norm_num)⟩

/-! ### Packet field codecs and PlayerDigging
(src/servidiot-network/src/io/primitives.rs integer impls,
src/servidiot-network/src/io/packet/mod.rs `def_user_enum`/`def_packets`/`packet_enum`,
src/servidiot-network/src/io/packet/client/play.rs `DiggingStatus`, `Face`,
`PlayerDigging`) -/

/-- Value of an i8 read from its one-byte two's-complement pattern
(`Cursor::read_i8`). -/
def i8val (b : Nat) : Int := if b < 128 then (b : Int) else (b : Int) - 256

/-- Value of an i32 from its 32-bit pattern (`byteorder::read_i32`). -/
def i32val (n : Nat) : Int := if n < 2 ^ 31 then (n : Int) else (n : Int) - 2 ^ 32

/-- `u8::read_from`: one byte off the cursor. -/
def readU8 : List Nat → Except String (Nat × List Nat)
  | [] => .error "eof"
  | b :: rest => .ok (b, rest)

/-- `i8::read_from` (`read_i8`). -/
def readI8 (data : List Nat) : Except String (Int × List Nat) :=
  (readU8 data).map fun p => (i8val p.1, p.2)

/-- `i32::read_from` (`read_i32::<BigEndian>`): four big-endian bytes. -/
def readI32 : List Nat → Except String (Int × List Nat)
  | b0 :: b1 :: b2 :: b3 :: rest => .ok (i32val (fromBE [b0, b1, b2, b3]), rest)
  | _ => .error "eof"

/-- `i8::write_to` (`write_i8`): the one-byte two's-complement pattern. -/
def writeI8 (i : Int) : List Nat := [(i % 2 ^ 8).toNat]

/-- `u8::write_to` (`write_u8`). -/
def writeU8 (n : Nat) : List Nat := [n % 256]

/-- `i32::write_to` (`write_i32::<BigEndian>`): four big-endian bytes of the
bit pattern. -/
def writeI32 (i : Int) : List Nat := beU32 (i32bits i)

/-- `DiggingStatus`, from `def_user_enum!` in play.rs: six variants whose
declared `(i8)` discriminators are 0, 0, 0, 3, 4, 5 — the first three all
share discriminator 0. -/
inductive DiggingStatus where
  | started
  | cancelled
  | finished
  | dropItemStack
  | dropItem
  | shootArrow
deriving DecidableEq, Repr

/-- The declared discriminator of each `DiggingStatus` variant (play.rs:158:
`Started = 0, Cancelled = 0, Finished = 0, DropItemStack = 3, DropItem = 4,
ShootArrow = 5`). -/
def diggingStatusDisc : DiggingStatus → Int
  | .started => 0
  | .cancelled => 0
  | .finished => 0
  | .dropItemStack => 3
  | .dropItem => 4
  | .shootArrow => 5

/-- `Writable for DiggingStatus` from `def_user_enum!`: write the variant's
discriminator as an i8. -/
def diggingStatusWrite (s : DiggingStatus) : List Nat :=
  writeI8 (diggingStatusDisc s)

/-- `Readable for DiggingStatus` from `def_user_enum!`: read an i8 and match
the discriminators in declaration order — the first matching arm wins, so a
0 byte always decodes to `Started` (the `Cancelled` and `Finished` arms are
unreachable). -/
def diggingStatusRead (data : List Nat) : Except String (DiggingStatus × List Nat) :=
  match readI8 data with
  | .error e => .error e
  | .ok (n, rest) =>
    if n = 0 then .ok (.started, rest)
    else if n = 0 then .ok (.cancelled, rest)
    else if n = 0 then .ok (.finished, rest)
    else if n = 3 then .ok (.dropItemStack, rest)
    else if n = 4 then .ok (.dropItem, rest)
    else if n = 5 then .ok (.shootArrow, rest)
    else .error "unknown variant"

/-- `Face`, from `def_user_enum!` in play.rs. -/
inductive Face where
  | invalid
  | negativeY
  | positiveY
  | negativeZ
  | positiveZ
  | negativeX
  | positiveX
deriving DecidableEq, Repr

/-- The declared `(i8)` discriminator of each `Face` variant. -/
def faceDisc : Face → Int
  | .invalid => -1
  | .negativeY => 0
  | .positiveY => 1
  | .negativeZ => 2
  | .positiveZ => 3
  | .negativeX => 4
  | .positiveX => 5

/-- `Writable for Face` from `def_user_enum!`. -/
def faceWrite (f : Face) : List Nat :=
  writeI8 (faceDisc f)

/-- `Readable for Face` from `def_user_enum!` (discriminators here are all
distinct, so the in-order match is injective). -/
def faceRead (data : List Nat) : Except String (Face × List Nat) :=
  match readI8 data with
  | .error e => .error e
  | .ok (n, rest) =>
    if n = -1 then .ok (.invalid, rest)
    else if n = 0 then .ok (.negativeY, rest)
    else if n = 1 then .ok (.positiveY, rest)
    else if n = 2 then .ok (.negativeZ, rest)
    else if n = 3 then .ok (.positiveZ, rest)
    else if n = 4 then .ok (.negativeX, rest)
    else if n = 5 then .ok (.positiveX, rest)
    else .error "unknown variant"

/-- The `PlayerDigging` packet (play.rs:85): `status: DiggingStatus`,
`x: i32`, `y: u8`, `z: i32`, `face: Face`. -/
structure PlayerDigging where
  status : DiggingStatus
  x : Int
  y : Nat
  z : Int
  face : Face
deriving DecidableEq, Repr

/-- `Writable for PlayerDigging` from `def_packets!`: each field written in
declaration order. -/
def playerDiggingWrite (p : PlayerDigging) : List Nat :=
  diggingStatusWrite p.status ++ writeI32 p.x ++ writeU8 p.y ++ writeI32 p.z ++ faceWrite p.face

/-- `Readable for PlayerDigging` from `def_packets!`: each field read in
declaration order. -/
def playerDiggingRead (data : List Nat) : Except String (PlayerDigging × List Nat) := do
  let (status, data) ← diggingStatusRead data
  let (x, data) ← readI32 data
  let (y, data) ← readU8 data
  let (z, data) ← readI32 data
  let (face, data) ← faceRead data
  pure (⟨status, x, y, z, face⟩, data)

/-- The `packet_enum!` writer restricted to the `PlayerDigging` arm: VarInt
packet id `0x07`, then the packet body. -/
def playerDiggingPacketWrite (p : PlayerDigging) : List Nat :=
  varIntWrite (i32bits 7) ++ playerDiggingWrite p

/-- The `packet_enum!` reader restricted to the `PlayerDigging` arm: read the
VarInt packet id, then the body if the id is `0x07`. -/
def playerDiggingPacketRead (data : List Nat) : Except String (PlayerDigging × List Nat) :=
  match varIntRead data with
  | .error _ => .error "bad packet id VarInt"
  | .ok (pid, rest) =>
    if pid = 7 then playerDiggingRead rest else .error "unknown packet ID"

/-- C5: the claim that `decode ∘ encode = id` for every packet, in particular
for `PlayerDigging` at every `DiggingStatus`, is violated: `DiggingStatus`
declares `Started = 0, Cancelled = 0, Finished = 0`, so the writer emits the
byte 0 for all three, and the reader's first-match-wins arm order decodes
that byte back to `Started`.  Encoding a `PlayerDigging` whose status is
`Cancelled` and decoding the bytes yields the same packet with status
`Started`, which differs from the original. -/
theorem playerDigging_roundtrip_not_id :
    diggingStatusWrite DiggingStatus.cancelled = diggingStatusWrite DiggingStatus.started
    ∧ diggingStatusWrite DiggingStatus.finished = diggingStatusWrite DiggingStatus.started
    ∧ playerDiggingPacketRead (playerDiggingPacketWrite
        (PlayerDigging.mk DiggingStatus.cancelled 100 64 (-200) Face.positiveY))
      = .ok (PlayerDigging.mk DiggingStatus.started 100 64 (-200) Face.positiveY, [])
    ∧ PlayerDigging.mk DiggingStatus.started 100 64 (-200) Face.positiveY
      ≠ PlayerDigging.mk DiggingStatus.cancelled 100 64 (-200) Face.positiveY := by
  refine ⟨rfl, rfl, rfl, by decide⟩

/-! ### GameWorld chunk tickets (src/servidiot-core/src/world/mod.rs)

`GameWorld` keeps `chunks: HashMap<ChunkLocation, (Chunk, TicketCount,
HashSet<Entity>)>` and `loading_requests: HashMap<ChunkLocation,
HashMap<NetworkID, Entity>>`.  The maps are embedded as association lists
(`HashMap::insert` replaces an existing binding); `ChunkLocation`,
`NetworkID`, `Entity` and the chunk payload are used only up to equality by
the functions below, so they are embedded as plain numeric types.  `expect`
panics and `anyhow` errors both become `Except.error`. -/

/-- A chunk location, used opaquely (only equality). -/
abbrev ChunkLocation := Int × Int

/-- A network id, used opaquely (only equality). -/
abbrev NetworkID := Nat

/-- An ECS entity id, used opaquely (only equality). -/
abbrev Entity := Nat

/-- A chunk payload; `GameWorld` never inspects it. -/
abbrev Chunk := Nat

/-- `HashMap` lookup on an association list. -/
def alistGet {κ α : Type} [DecidableEq κ] : List (κ × α) → κ → Option α
  | [], _ => none
  | (k, v) :: rest, key => if k = key then some v else alistGet rest key

/-- `HashMap::insert`: replace the binding for the key, or add one. -/
def alistInsert {κ α : Type} [DecidableEq κ] : List (κ × α) → κ → α → List (κ × α)
  | [], key, val => [(key, val)]
  | (k, v) :: rest, key, val =>
    if k = key then (key, val) :: rest else (k, v) :: alistInsert rest key val

/-- `HashMap::remove`, keeping only the residual map. -/
def alistRemove {κ α : Type} [DecidableEq κ] : List (κ × α) → κ → List (κ × α)
  | [], _ => []
  | (k, v) :: rest, key => if k = key then rest else (k, v) :: alistRemove rest key

/-- The parts of `GameWorld` (mod.rs:33) that the ticket machinery touches:
the loading-request map, the loaded-chunk map (payload, `TicketCount`, the
entity set as a list), and the `LoadChunk` commands pushed down
`command_sender`. -/
structure GameWorld where
  loadingRequests : List (ChunkLocation × List (NetworkID × Entity))
  chunks : List (ChunkLocation × (Chunk × Nat × List Entity))
  commandsSent : List ChunkLocation
deriving DecidableEq, Repr

/-- `GameWorld::get_chunk`. -/
def getChunk (w : GameWorld) (loc : ChunkLocation) : Option (Chunk × Nat × List Entity) :=
  alistGet w.chunks loc

/-- `GameWorld::add_chunk` (mod.rs:67): insert the arrived chunk with
`TicketCount(0)` and an empty entity set — unconditionally. -/
def addChunk (w : GameWorld) (position : ChunkLocation) (chunk : Chunk) : GameWorld :=
  { w with chunks := alistInsert w.chunks position (chunk, 0, []) }

/-- `GameWorld::add_ticket` (mod.rs:81): if the chunk is not loaded, send a
`LoadChunk` command and return `false`; otherwise increment its ticket count
(`add_ticket_for_loaded`, `TicketCount::increment` is `saturating_add(1)`)
and return `true`. -/
def addTicket (w : GameWorld) (chunk : ChunkLocation) : GameWorld × Bool :=
  match alistGet w.chunks chunk with
  | none => ({ w with commandsSent := w.commandsSent ++ [chunk] }, false)
  | some (c, t, es) => ({ w with chunks := alistInsert w.chunks chunk (c, t + 1, es) }, true)

/-- `GameWorld::load_for_client` (mod.rs:141), world-state part: add the
player entity to the chunk's entity set; the `expect("Should be loaded when
this is called")` panic becomes an error. -/
def loadForClient (w : GameWorld) (playerEntity : Entity) (chunk : ChunkLocation) :
    Except String GameWorld :=
  match alistGet w.chunks chunk with
  | none => .error "Should be loaded when this is called"
  | some (c, t, es) =>
    .ok { w with chunks := alistInsert w.chunks chunk (c, t, es ++ [playerEntity]) }

/-- `GameWorld::add_player_to_chunk` (mod.rs:161): take a ticket; if the
chunk was loaded, register the player on it, else record a loading request
under the player's network id. -/
def addPlayerToChunk (w : GameWorld) (playerId : NetworkID) (playerEntity : Entity)
    (chunk : ChunkLocation) : Except String GameWorld :=
  let p := addTicket w chunk
  if p.2 then loadForClient p.1 playerEntity chunk
  else
    let entry := alistInsert ((alistGet p.1.loadingRequests chunk).getD []) playerId playerEntity
    .ok { p.1 with loadingRequests := alistInsert p.1.loadingRequests chunk entry }

/-- `GameWorld::cancel_loading_request` (mod.rs:180): remove the id from the
chunk's request map if present — the (possibly now empty) map entry itself is
left in place. -/
def cancelLoadingRequest (w : GameWorld) (chunk : ChunkLocation) (id : NetworkID) : GameWorld :=
  match alistGet w.loadingRequests chunk with
  | none => w
  | some v => { w with loadingRequests := alistInsert w.loadingRequests chunk (alistRemove v id) }

/-- The `for req in requests` loop body of `GameWorld::process_loads`
(mod.rs:193): add each waiting player to the now-loaded chunk. -/
def processRequests : List (NetworkID × Entity) → ChunkLocation → GameWorld →
    Except String GameWorld
  | [], _, w => .ok w
  | (id, e) :: rest, loc, w =>
    match addPlayerToChunk w id e loc with
    | .error err => .error err
    | .ok w => processRequests rest loc w

/-- `GameWorld::process_loads` (mod.rs:189), with the chunks drained from
`chunk_recv` passed as the `arrivals` list: each arrival is inserted with
`add_chunk` (ticket count 0), then any waiting requests are removed from the
map and replayed. -/
def processLoads : List (Chunk × ChunkLocation) → GameWorld → Except String GameWorld
  | [], w => .ok w
  | (chunk, loc) :: rest, w =>
    let w := addChunk w loc chunk
    match alistGet w.loadingRequests loc with
    | none => processLoads rest w
    | some requests =>
      let w := { w with loadingRequests := alistRemove w.loadingRequests loc }
      match processRequests requests loc w with
      | .error e => .error e
      | .ok w => processLoads rest w

/-- C8: both halves of the claim are violated by `GameWorld`.  First, an
arrival nobody is waiting for is retained, not discarded: processing a load
completion for `(0, 0)` on a world with no requests leaves the chunk in the
map.  Second, the retained chunk has `ticket_count = 0`, violating the
`ticket_count ≥ 1` invariant — `add_chunk` (mod.rs:67) always inserts
`TicketCount(0)` and `process_loads` (mod.rs:189) only raises it via the
waiting requests, so the same happens on the realistic trace where player 1
requests the chunk, cancels before the load completes (leaving an empty
request entry), and the load then arrives. -/
theorem processLoads_retains_zero_ticket_chunk :
    (processLoads [(99, (0, 0))] ⟨[], [], []⟩).map (fun w => getChunk w (0, 0))
      = .ok (some (99, 0, []))
    ∧ (addPlayerToChunk ⟨[], [], []⟩ 1 10 (0, 0) >>= fun w =>
        processLoads [(99, (0, 0))] (cancelLoadingRequest w (0, 0) 1)).map
          (fun w => getChunk w (0, 0))
      = .ok (some (99, 0, []))
    ∧ ¬ 1 ≤ 0 :=
  ⟨rfl, rfl, by decide⟩

/-! ### View::chunks (src/servidiot-core/src/world/view.rs:17 and
src/servidiot-world/src/view.rs:17 — both bodies iterate the same ranges)

`View::chunks` inserts `(x, z)` for `x` in the half-open Rust range
`(center.x - radius as i32)..(center.x + radius as i32)` and `z` likewise.
The embedding enumerates the same pairs; the plane location carried by
`ChunkLocation` in the servidiot-world copy is the same for every element and
is dropped. -/

/-- The Rust half-open range `lo..hi` over `i32`, as a list (empty when
`hi ≤ lo`, as in Rust). -/
def rangeInts (lo hi : Int) : List Int :=
  (List.range (hi - lo).toNat).map (fun i : Nat => lo + (i : Int))

/-- `View::chunks`: all `(x, z)` with `x` in
`(center.x - radius)..(center.x + radius)` and `z` in
`(center.z - radius)..(center.z + radius)` (`radius: u32` cast to i32). -/
def viewChunks (center : Int × Int) (radius : Nat) : List (Int × Int) :=
  (rangeInts (center.1 - (radius : Int)) (center.1 + (radius : Int))).flatMap
    (fun x => (rangeInts (center.2 - (radius : Int)) (center.2 + (radius : Int))).map
      (fun z => (x, z)))

theorem mem_rangeInts {lo hi x : Int} : x ∈ rangeInts lo hi ↔ lo ≤ x ∧ x < hi := by
  simp only [rangeInts, List.mem_map, List.mem_range]
  constructor
  · rintro ⟨i, hi', rfl⟩
    omega
  · rintro ⟨h1, h2⟩
    exact ⟨(x - lo).toNat, by omega, by omega⟩

theorem length_rangeInts (lo hi : Int) : (rangeInts lo hi).length = (hi - lo).toNat := by
  simp [rangeInts]

theorem nodup_rangeInts (lo hi : Int) : (rangeInts lo hi).Nodup := by
  refine List.Nodup.map ?_ (List.nodup_range _)
  intro a b hab
  have h : lo + (a : Int) = lo + (b : Int) := hab
  omega

theorem mem_viewChunks {cx cz x z : Int} {r : Nat} :
    (x, z) ∈ viewChunks (cx, cz) r ↔
      cx - r ≤ x ∧ x < cx + r ∧ cz - r ≤ z ∧ z < cz + r := by
  simp only [viewChunks, List.mem_flatMap, List.mem_map, mem_rangeInts, Prod.mk.injEq]
  constructor
  · rintro ⟨a, ⟨h1, h2⟩, b, ⟨h3, h4⟩, rfl, rfl⟩
    exact ⟨h1, h2, h3, h4⟩
  · rintro ⟨h1, h2, h3, h4⟩
    exact ⟨x, ⟨h1, h2⟩, z, ⟨h3, h4⟩, rfl, rfl⟩

theorem length_viewChunks (cx cz : Int) (r : Nat) :
    (viewChunks (cx, cz) r).length = 2 * r * (2 * r) := by
  simp only [viewChunks, List.length_flatMap, List.map_map]
  have h1 : (List.length ∘ fun x : Int =>
      (rangeInts (cz - r) (cz + r)).map (fun z => (x, z)))
      = fun _ : Int => 2 * r := by
    funext x
    simp only [Function.comp, List.length_map, length_rangeInts]
    omega
  rw [h1, List.map_const', List.sum_replicate, length_rangeInts]
  have h2 : (cx + r - (cx - r)).toNat = 2 * r := by omega
  rw [h2, smul_eq_mul]

theorem nodup_viewChunks (cx cz : Int) (r : Nat) : (viewChunks (cx, cz) r).Nodup := by
  refine List.nodup_flatMap.2 ⟨fun x _ => ?_, ?_⟩
  · refine List.Nodup.map ?_ (nodup_rangeInts _ _)
    intro a b hab
    injection hab with h1 h2
  · refine (nodup_rangeInts _ _).imp ?_
    intro a b hne p hp1 hp2
    obtain ⟨z1, _, rfl⟩ := List.mem_map.1 hp1
    obtain ⟨z2, _, h⟩ := List.mem_map.1 hp2
    injection h with ha hz
    exact hne ha.symm

/-- C10: `View::chunks` returns exactly the half-open 2r-by-2r square of
chunk positions `(x, z)` with `c.x - r ≤ x < c.x + r` and
`c.z - r ≤ z < c.z + r`: membership is as stated, the list has no duplicates
and exactly `(2r)²` elements — 16 when `r = 2` — and for `r = 2` the low
corner `(c.x - 2, c.z - 2)` is included while `(c.x + 2, c.z)` and the high
corner `(c.x + 2, c.z + 2)` are not, so the result is NOT the closed
(2r+1)-by-(2r+1) Chebyshev neighborhood. -/
theorem viewChunks_halfOpen_square (cx cz : Int) (r : Nat) :
    (∀ x z : Int, (x, z) ∈ viewChunks (cx, cz) r ↔
        cx - r ≤ x ∧ x < cx + r ∧ cz - r ≤ z ∧ z < cz + r)
    ∧ (viewChunks (cx, cz) r).Nodup
    ∧ (viewChunks (cx, cz) r).length = 2 * r * (2 * r)
    ∧ (viewChunks (cx, cz) 2).length = 16
    ∧ (cx - 2, cz - 2) ∈ viewChunks (cx, cz) 2
    ∧ (cx + 2, cz) ∉ viewChunks (cx, cz) 2
    ∧ (cx + 2, cz + 2) ∉ viewChunks (cx, cz) 2 := by
  refine ⟨fun x z => mem_viewChunks, nodup_viewChunks cx cz r, length_viewChunks cx cz r,
    (length_viewChunks cx cz 2).trans (by norm_num), ?_, ?_, ?_⟩
  · exact mem_viewChunks.mpr ⟨by norm_num, by omega, by norm_num, by omega⟩
  · intro hmem
    have h := mem_viewChunks.mp hmem
    omega
  · intro hmem
    have h := mem_viewChunks.mp hmem
    omega

/-! ### Minecraft auth hash (src/servidiot-yggdrasil/src/authenticate.rs)

`MinecraftAuthenticator::new` feeds `server_id.as_bytes()`, the 16-byte
`shared_secret` and the DER-encoded public key into a streaming `Sha1` in
that order; `minecraft_digest` finalizes it, interprets the 20 digest bytes
with `BigInt::from_signed_bytes_be` and renders `to_str_radix(16)`.  The
SHA-1 core (an external RustCrypto crate) is embedded as the FIPS 180
algorithm it implements, with the streaming hasher state modelled as the
bytes absorbed so far; `from_signed_bytes_be` follows num-bigint (negative
iff the first byte is `> 0x7f`, magnitude via byte-wise two's complement:
flip all bytes, then add one from the least-significant end);
`to_str_radix(16)` produces lowercase hex digits of the magnitude by
repeated division, `"0"` for zero, `-`-prefixed when negative.  The
spec-side definitions (`signedBEValue`, `specHexRender`, `specAuthHash`)
restate the spec's words: the digest as a signed big-endian integer, hex
with a leading minus exactly when negative and no zero padding. -/

theorem fromBE_append_singleton (xs : List Nat) (b : Nat) :
    fromBE (xs ++ [b]) = fromBE xs * 256 + b := by
  simp [fromBE, List.foldl_append]

theorem fromBE_reverse (l : List Nat) : fromBE l.reverse = fromLE l := by
  induction l with
  | nil => rfl
  | cons x rest ih =>
    simp only [List.reverse_cons, fromBE_append_singleton, ih]
    simp [fromLE]

theorem fromLE_reverse (l : List Nat) : fromLE l.reverse = fromBE l := by
  have h := fromBE_reverse l.reverse
  rw [List.reverse_reverse] at h
  exact h.symm

theorem fromLE_flip {l : List Nat} (h : ∀ b ∈ l, b < 256) :
    fromLE (l.map (fun b => 255 - b)) + fromLE l + 1 = 256 ^ l.length := by
  induction l with
  | nil => simp [fromLE]
  | cons x rest ih =>
    have hx : x < 256 := h x (List.mem_cons_self x rest)
    have hr := ih (fun b hb => h b (List.mem_cons_of_mem x hb))
    simp only [List.map_cons, fromLE, List.foldr_cons, List.length_cons, pow_succ] at *
    omega

/-- The LSB-first carry loop of num-bigint's `twos_complement`: add one,
propagating the carry while bytes are 255. -/
def addOneLE : List Nat → List Nat
  | [] => []
  | b :: rest => if b = 255 then 0 :: addOneLE rest else (b + 1) :: rest

theorem fromLE_addOneLE {l : List Nat} (h : ∃ b ∈ l, b ≠ 255) :
    fromLE (addOneLE l) = fromLE l + 1 := by
  induction l with
  | nil => simp at h
  | cons b rest ih =>
    by_cases hb : b = 255
    · subst hb
      have hr : ∃ c ∈ rest, c ≠ 255 := by
        rcases h with ⟨c, hc, hne⟩
        rcases List.mem_cons.1 hc with rfl | hc'
        · omega
        · exact ⟨c, hc', hne⟩
      simp only [addOneLE, if_pos rfl, fromLE, List.foldr_cons]
      show (fromLE (addOneLE rest)) * 256 + 0 = fromLE rest * 256 + 255 + 1
      rw [ih hr]
      ring
    · simp only [addOneLE, if_neg hb, fromLE, List.foldr_cons]
      ring

/-- num-bigint's `twos_complement_be`: flip every byte, then add one from the
least-significant (last) byte. -/
def twosComplementBE (d : List Nat) : List Nat :=
  (addOneLE ((d.map (fun b => 255 - b)).reverse)).reverse

/-- `BigInt::from_signed_bytes_be` (num-bigint): sign is minus iff the first
byte is `> 0x7f`; a negative value's magnitude is the two's complement of the
bytes. -/
def fromSignedBytesBE (digits : List Nat) : Int :=
  match digits.head? with
  | none => 0
  | some v =>
    if 0x7f < v then -(fromBE (twosComplementBE digits) : Int)
    else (fromBE digits : Int)

/-- Spec-side value of a byte string read as a signed big-endian integer:
the unsigned value, minus `256 ^ length` when the sign bit of the first byte
is set. -/
def signedBEValue (d : List Nat) : Int :=
  (fromBE d : Int) - (if 128 ≤ d.headD 0 then (256 : Int) ^ d.length else 0)

theorem fromBE_twosComplementBE {d : List Nat} (hbytes : ∀ b ∈ d, b < 256)
    (hhead : 128 ≤ d.headD 0) :
    (fromBE (twosComplementBE d) : Nat) + fromBE d = 256 ^ d.length := by
  obtain ⟨b0, rest, rfl⟩ : ∃ b0 rest, d = b0 :: rest := by
    cases d with
    | nil => simp at hhead
    | cons a r => exact ⟨a, r, rfl⟩
  have hb0 : (128 : Nat) ≤ b0 := by simpa using hhead
  have hne : ∃ b ∈ ((b0 :: rest).map (fun b => 255 - b)).reverse, b ≠ 255 := by
    refine ⟨255 - b0, ?_, by omega⟩
    rw [List.mem_reverse]
    exact List.mem_map_of_mem _ (List.mem_cons_self b0 rest)
  have h1 : fromBE (twosComplementBE (b0 :: rest))
      = fromLE (addOneLE (((b0 :: rest).map (fun b => 255 - b)).reverse)) := by
    rw [twosComplementBE, ← fromLE_reverse, List.reverse_reverse]
  rw [h1, fromLE_addOneLE hne]
  have hmr : (List.map (fun b => 255 - b) (b0 :: rest)).reverse
      = (b0 :: rest).reverse.map (fun b => 255 - b) := (List.map_reverse _ _).symm
  rw [hmr, ← fromLE_reverse (b0 :: rest)]
  have hbytes' : ∀ b ∈ (b0 :: rest).reverse, b < 256 := by
    intro b hb
    exact hbytes b (List.mem_reverse.1 hb)
  have hf := fromLE_flip hbytes'
  simp only [List.length_reverse, List.length_map] at hf ⊢
  omega

theorem fromSignedBytesBE_eq {d : List Nat} (hbytes : ∀ b ∈ d, b < 256) :
    fromSignedBytesBE d = signedBEValue d := by
  cases d with
  | nil => rfl
  | cons b0 rest =>
    by_cases hb : 0x7f < b0
    · have hhead : (128 : Nat) ≤ (b0 :: rest).headD 0 := by simpa using hb
      have htc := fromBE_twosComplementBE hbytes hhead
      simp only [fromSignedBytesBE, List.head?_cons, if_pos hb, signedBEValue, List.headD_cons,
        if_pos (by omega : (128 : Nat) ≤ b0)]
      have hc : (fromBE (twosComplementBE (b0 :: rest)) : Int)
          = (256 : Int) ^ (b0 :: rest).length - (fromBE (b0 :: rest) : Int) := by
        have hcast := congrArg (fun n : Nat => (n : Int)) htc
        push_cast at hcast
        linarith
      rw [hc]
      ring
    · simp only [fromSignedBytesBE, List.head?_cons, if_neg hb, signedBEValue, List.headD_cons,
        if_neg (by omega : ¬ (128 : Nat) ≤ b0)]
      ring

/-- Lowercase hex digit characters, as in num-bigint's `to_str_radix`. -/
def hexDigit (n : Nat) : Char := if n < 10 then Char.ofNat (48 + n) else Char.ofNat (87 + n)

/-- Hex digits of `n`, least significant first, by repeated division — the
digit-extraction loop of `to_str_radix` (fuel-recursive; fuel `n` is always
enough since `n / 16 < n`). -/
def natHexLE : Nat → Nat → List Nat
  | 0, _ => []
  | fuel + 1, n => if n = 0 then [] else n % 16 :: natHexLE fuel (n / 16)

/-- Magnitude rendering of `to_str_radix(16)`: most-significant digit first,
`"0"` for zero, no leading zeros otherwise. -/
def natHexString (n : Nat) : String :=
  let ds := natHexLE n n
  if ds = [] then "0" else String.mk (ds.reverse.map hexDigit)

/-- `BigInt::to_str_radix(16)`: `-`-prefixed magnitude for negatives. -/
def toStrRadix16 (i : Int) : String :=
  if i < 0 then "-" ++ natHexString i.natAbs else natHexString i.natAbs

/-- Spec-side rendering: the hexadecimal representation of the absolute
value — `Nat.digits 16`, most significant first, which by construction has
no zero padding — with a leading minus exactly when the integer is
negative. -/
def specHexRender (i : Int) : String :=
  (if i < 0 then "-" else "") ++
    (if i.natAbs = 0 then "0"
     else String.mk ((Nat.digits 16 i.natAbs).reverse.map hexDigit))

theorem natHexLE_eq_digits : ∀ fuel n, n ≤ fuel → natHexLE fuel n = Nat.digits 16 n := by
  intro fuel
  induction fuel with
  | zero =>
    intro n hn
    interval_cases n
    rw [Nat.digits_zero]
    rfl
  | succ fuel ih =>
    intro n hn
    by_cases h0 : n = 0
    · subst h0
      simp [natHexLE, Nat.digits_zero]
    · rw [natHexLE, if_neg h0, Nat.digits_def' (by norm_num : 1 < 16) (by omega), ih]
      have : n / 16 < n := Nat.div_lt_self (by omega) (by norm_num)
      omega

theorem toStrRadix16_eq_spec (i : Int) : toStrRadix16 i = specHexRender i := by
  have hrender : natHexString i.natAbs
      = (if i.natAbs = 0 then "0"
         else String.mk ((Nat.digits 16 i.natAbs).reverse.map hexDigit)) := by
    rw [natHexString, natHexLE_eq_digits _ _ (le_refl _)]
    by_cases h0 : i.natAbs = 0
    · simp [h0]
    · rw [if_neg h0, if_neg]
      simp [Nat.digits_ne_nil_iff_ne_zero, h0]
  by_cases hneg : i < 0
  · simp only [toStrRadix16, if_pos hneg, specHexRender, hrender]
  · simp only [toStrRadix16, if_neg hneg, specHexRender, hrender]
    exact (String.empty_append _).symm

/-- Big-endian bytes of a `u64` (the SHA-1 length field). -/
def beU64 (n : Nat) : List Nat :=
  [n / 2 ^ 56 % 256, n / 2 ^ 48 % 256, n / 2 ^ 40 % 256, n / 2 ^ 32 % 256,
   n / 2 ^ 24 % 256, n / 2 ^ 16 % 256, n / 2 ^ 8 % 256, n % 256]

/-- 32-bit left rotation (on bit patterns `x < 2^32`). -/
def rotl32 (k x : Nat) : Nat := ((x <<< k) % 2 ^ 32) ||| (x >>> (32 - k))

/-- The SHA-1 round function `f` for round `i` (FIPS 180). -/
def sha1F (i b c d : Nat) : Nat :=
  if i < 20 then (b &&& c) ||| ((b ^^^ 0xFFFFFFFF) &&& d)
  else if i < 40 then b ^^^ c ^^^ d
  else if i < 60 then (b &&& c) ||| (b &&& d) ||| (c &&& d)
  else b ^^^ c ^^^ d

/-- The SHA-1 round constant for round `i`. -/
def sha1K (i : Nat) : Nat :=
  if i < 20 then 0x5A827999
  else if i < 40 then 0x6ED9EBA1
  else if i < 60 then 0x8F1BBCDC
  else 0xCA62C1D6

/-- SHA-1 padding: `0x80`, zeros to 56 mod 64, then the bit length as a
big-endian u64. -/
def sha1Pad (msg : List Nat) : List Nat :=
  msg ++ [0x80] ++ List.replicate ((119 - msg.length % 64) % 64) 0 ++ beU64 (8 * msg.length)

/-- SHA-1 message schedule: 16 big-endian words from the block, extended to
80 words. -/
def sha1Schedule (block : List Nat) : List Nat :=
  let w0 := (List.range 16).map (fun i => fromBE ((block.drop (4 * i)).take 4))
  (List.range 64).foldl
    (fun w _ => w ++ [rotl32 1 ((w.getD (w.length - 3) 0) ^^^ (w.getD (w.length - 8) 0)
      ^^^ (w.getD (w.length - 14) 0) ^^^ (w.getD (w.length - 16) 0))]) w0

/-- One SHA-1 round on the working state `(a, b, c, d, e)`. -/
def sha1Round (i : Nat) (w : List Nat) (s : Nat × Nat × Nat × Nat × Nat) :
    Nat × Nat × Nat × Nat × Nat :=
  match s with
  | (a, b, c, d, e) =>
    ((rotl32 5 a + sha1F i b c d + e + sha1K i + w.getD i 0) % 2 ^ 32,
     a, rotl32 30 b, c, d)

/-- SHA-1 compression of one 64-byte block into the chaining state. -/
def sha1Compress (hs : Nat × Nat × Nat × Nat × Nat) (block : List Nat) :
    Nat × Nat × Nat × Nat × Nat :=
  let f := (List.range 80).foldl (fun s i => sha1Round i (sha1Schedule block) s) hs
  ((hs.1 + f.1) % 2 ^ 32, (hs.2.1 + f.2.1) % 2 ^ 32, (hs.2.2.1 + f.2.2.1) % 2 ^ 32,
   (hs.2.2.2.1 + f.2.2.2.1) % 2 ^ 32, (hs.2.2.2.2 + f.2.2.2.2) % 2 ^ 32)

/-- Process the padded message 64 bytes at a time (fuel-recursive; the fuel
is the padded length, far more than the block count). -/
def sha1Process : Nat → (Nat × Nat × Nat × Nat × Nat) → List Nat → Nat × Nat × Nat × Nat × Nat
  | 0, hs, _ => hs
  | fuel + 1, hs, data =>
    if data = [] then hs
    else sha1Process fuel (sha1Compress hs (data.take 64)) (data.drop 64)

/-- The SHA-1 initial chaining state. -/
def sha1Init : Nat × Nat × Nat × Nat × Nat :=
  (0x67452301, 0xEFCDAB89, 0x98BADCFE, 0x10325476, 0xC3D2E1F0)

/-- SHA-1 of a byte string: 20 big-endian digest bytes.  (Checked against
the FIPS test vectors for `""` and `"abc"`, and against the known Minecraft
auth hash of `"jeb_"`, during development.) -/
def sha1 (msg : List Nat) : List Nat :=
  let p := sha1Pad msg
  let hs := sha1Process p.length sha1Init p
  beU32 hs.1 ++ beU32 hs.2.1 ++ beU32 hs.2.2.1 ++ beU32 hs.2.2.2.1 ++ beU32 hs.2.2.2.2

theorem beU32_mem_lt (n : Nat) : ∀ b ∈ beU32 n, b < 256 := by
  intro b hb
  simp only [beU32, List.mem_cons, List.not_mem_nil, or_false] at hb
  rcases hb with rfl | rfl | rfl | rfl <;> omega

theorem sha1_mem_lt (msg : List Nat) : ∀ b ∈ sha1 msg, b < 256 := by
  intro b hb
  simp only [sha1, List.mem_append] at hb
  rcases hb with ((((h | h) | h) | h) | h) <;> exact beU32_mem_lt _ b h

theorem sha1_length (msg : List Nat) : (sha1 msg).length = 20 := by
  simp [sha1, beU32]

/-- The streaming `Sha1` hasher, modelled by the bytes absorbed so far
(`update` appends, `finalize` digests the whole absorbed string). -/
structure Sha1 where
  absorbed : List Nat

/-- `Sha1::default()`. -/
def sha1New : Sha1 := ⟨[]⟩

/-- `Sha1::update`. -/
def Sha1.update (h : Sha1) (data : List Nat) : Sha1 := ⟨h.absorbed ++ data⟩

/-- `Sha1::finalize`. -/
def Sha1.finalize (h : Sha1) : List Nat := sha1 h.absorbed

/-- `minecraft_digest` (authenticate.rs:106): finalize, read the digest as a
signed big-endian BigInt, render in base 16. -/
def minecraftDigest (h : Sha1) : String :=
  toStrRadix16 (fromSignedBytesBE h.finalize)

/-- The `server_hash` computed by `MinecraftAuthenticator::new`
(authenticate.rs:43-47): hash `server_id`, then `shared_secret`, then the
DER public key, and apply `minecraft_digest`. -/
def authServerHash (serverId sharedSecret publicKeyDer : List Nat) : String :=
  minecraftDigest (((sha1New.update serverId).update sharedSecret).update publicKeyDer)

/-- Spec-side auth hash, from the spec's words: the SHA-1 digest of
`server_id_bytes || shared_secret || public_key_der` interpreted as a signed
big-endian big-integer and written in hexadecimal, with a leading minus
exactly when negative and no zero padding. -/
def specAuthHash (serverId sharedSecret publicKeyDer : List Nat) : String :=
  specHexRender (signedBEValue (sha1 (serverId ++ sharedSecret ++ publicKeyDer)))

/-- C9: for every server id, shared secret and DER public key byte string,
the auth hash computed by `MinecraftAuthenticator::new` /
`minecraft_digest` equals the spec's description: the SHA-1 digest of
`server_id_bytes || shared_secret || public_key_der` read as a signed
big-endian big integer and rendered in hex, minus-prefixed exactly when
negative, with no zero padding. -/
theorem authServerHash_eq_spec (serverId sharedSecret publicKeyDer : List Nat) :
    authServerHash serverId sharedSecret publicKeyDer
      = specAuthHash serverId sharedSecret publicKeyDer := by
  have habs : ((sha1New.update serverId).update sharedSecret).update publicKeyDer
      = ⟨serverId ++ sharedSecret ++ publicKeyDer⟩ := by
    simp [Sha1.update, sha1New]
  rw [authServerHash, minecraftDigest, habs, Sha1.finalize,
    fromSignedBytesBE_eq (sha1_mem_lt _), toStrRadix16_eq_spec, specAuthHash]

end Servidiot
